import Mathlib

/-!
# Sigma-Delta Modulator (SDM): shallow embedding and verification

The repository ships the public interface of its sigma-delta modulator in
`src/sdm.h`: `sdm_init`, `sdm_process`, `sdm_drain`, `sdm_packet_process`,
`sdm_packet_drain`, `sdm_close`, together with the trellis parameter maxima
`SDM_TRELLIS_MAX_ORDER = 32`, `SDM_TRELLIS_MAX_NUM = 32`,
`SDM_TRELLIS_MAX_LAT = 2048`.  The implementation file `sdm.c` is not part
of the sources at hand, so the behaviour behind those declarations is
modelled from the specification: a trellis (beam-search) noise shaper that
per input sample extends every candidate path with both output bit choices,
prunes to the best `trellis_num` candidates by accumulated cost with a
deterministic tie-break, and finalizes the oldest undecided bit once a path
holds more than `trellis_latency` undecided bits.  Two thin adapters expose
the engine: a sample-domain streaming API and a byte-packing packet API.
-/

set_option autoImplicit false

/-- `SDM_TRELLIS_MAX_ORDER` from `sdm.h`. -/
def SDM_TRELLIS_MAX_ORDER : ℕ := 32

/-- `SDM_TRELLIS_MAX_NUM` from `sdm.h`. -/
def SDM_TRELLIS_MAX_NUM : ℕ := 32

/-- `SDM_TRELLIS_MAX_LAT` from `sdm.h`. -/
def SDM_TRELLIS_MAX_LAT : ℕ := 2048

/-- Modelled from the spec: a candidate path of the trellis engine.  Each
path owns its filter-state snapshot (history of past filtered error
values), its pending (undecided) bit choices over the last
`trellis_latency` samples (oldest first), and an accumulated cost
(weighted squared noise-shaped error).  Numeric values (samples, filter
state, costs) are modelled as integers; the claims under study are
independent of the numeric representation. -/
structure SdmPath where
  filtState : List ℤ
  pending : List Bool
  cost : ℤ
  deriving Repr, DecidableEq

/-- Modelled from the spec: the modulator instance (`struct sdm`, whose
definition lives in the missing `sdm.c`).  It owns the immutable
coefficient set and trellis configuration, the candidate path set, the
pending output queue of finalized bits, and the bit-pack accumulator of
the packet API (fewer than 8 bits). -/
structure Sdm where
  coeffs : List ℤ
  order : ℕ
  num : ℕ
  latency : ℕ
  paths : List SdmPath
  queue : List Bool
  acc : List Bool
  deriving Repr, DecidableEq

/-- Modelled from the spec: the filter bank table.  The real coefficient
vectors live in the missing `sdm.c`; the model provides a representative
table of named noise-shaping filters with the lookup contract (unknown
name fails construction). -/
def sdm_filter_table : List (String × List ℤ) :=
  [("sdm-4", [128, 64, 32, 16]),
   ("sdm-8", [128, 64, 32, 16, 8, 4, 2, 1]),
   ("clans-4", [170, 85, 42, 21])]

/-- Modelled from the spec: filter lookup with rate scaling (`a pure
lookup/derivation step invoked once at construction`); coefficients are
scaled so the response is correct at the given rate, relative to the
base DSD64 rate 2822400. -/
def sdm_find_filter (name : String) (freq : ℕ) : Option (List ℤ) :=
  match sdm_filter_table.lookup name with
  | none => none
  | some cs => some (cs.map (fun c => c * 2822400 / (freq : ℤ)))

/-- The initial candidate path: zeroed filter history, no undecided bits,
zero cost. -/
def initPath (order : ℕ) : SdmPath :=
  { filtState := List.replicate order 0, pending := [], cost := 0 }

/-- Modelled from the spec: `sdm_init`.  Construction fails on an
unrecognized filter name or on trellis parameters above the documented
maxima of `sdm.h`.  The beam width stored in the instance is at least one
(the spec's engine always keeps at least the best candidate; a beam of
width zero could not carry the search). -/
def sdm_init (filter_name : String) (freq : ℕ)
    (trellis_order trellis_num trellis_latency : ℕ) : Option Sdm :=
  if SDM_TRELLIS_MAX_ORDER < trellis_order ∨ SDM_TRELLIS_MAX_NUM < trellis_num ∨
      SDM_TRELLIS_MAX_LAT < trellis_latency then
    none
  else
    match sdm_find_filter filter_name freq with
    | none => none
    | some cs =>
        some { coeffs := cs, order := trellis_order, num := max 1 trellis_num,
               latency := trellis_latency, paths := [initPath trellis_order],
               queue := [], acc := [] }

/-- The reconstructed full-scale value of an output bit choice. -/
def reconstruct (b : Bool) : ℤ := if b then 1 else -1

/-- Dot product of coefficient and state vectors. -/
def dotQ : List ℤ → List ℤ → ℤ
  | a :: as, b :: bs => a * b + dotQ as bs
  | _, _ => 0

/-- Modelled from the spec: one extension of a candidate path by one bit
choice.  The sample minus the chosen bit's reconstructed value is run
through the loop filter (error feedback over the path's filter-state
history, `trellis_order` taps) to obtain a new filtered error; the squared
error is accumulated into the path cost and the bit is appended to the
pending history. -/
def extendPath (cs : List ℤ) (ord : ℕ) (x : ℤ) (p : SdmPath) (b : Bool) : SdmPath :=
  let e := x - reconstruct b + dotQ (cs.take ord) p.filtState
  { filtState := (e :: p.filtState).take ord,
    pending := p.pending ++ [b],
    cost := p.cost + e * e }

/-- Modelled from the spec: the extend phase — every surviving candidate
is extended twice, once per output bit level, giving up to
`2 * trellis_num` extended candidates. -/
def extendAll (s : Sdm) (x : ℤ) : List SdmPath :=
  s.paths.foldr
    (fun p acc =>
      extendPath s.coeffs s.order x p false :: extendPath s.coeffs s.order x p true :: acc)
    []

/-- Insert a path into a cost-sorted list, after any path of equal or
smaller cost (a deterministic tie-break). -/
def insertByCost (p : SdmPath) : List SdmPath → List SdmPath
  | [] => [p]
  | q :: qs => if p.cost < q.cost then p :: q :: qs else q :: insertByCost p qs

/-- Modelled from the spec: the prune ranking — candidates ordered by
accumulated cost ascending with a deterministic tie-break. -/
def sortByCost : List SdmPath → List SdmPath
  | [] => []
  | p :: ps => insertByCost p (sortByCost ps)

/-- Remove the oldest undecided bit from a path. -/
def trimOne (p : SdmPath) : SdmPath := { p with pending := p.pending.tail }

/-- Modelled from the spec: the finalize phase.  Once the undecided
history exceeds `trellis_latency`, the oldest bit of the lowest-cost
surviving candidate is finalized and removed from every candidate's
undecided history (paths are trimmed, not restarted). -/
def sdmFinalize (latency : ℕ) (ps : List SdmPath) : List SdmPath × List Bool :=
  match ps with
  | [] => ([], [])
  | best :: rest =>
      if latency < best.pending.length then
        (List.map trimOne (best :: rest), [best.pending.headI])
      else
        (best :: rest, [])

/-- One engine step on one input sample: extend, prune to the best
`num` candidates, finalize; the finalized bits (zero or one of them) are
appended to the pending output queue and also returned. -/
def sdmStepE (s : Sdm) (x : ℤ) : Sdm × List Bool :=
  let pr := (sortByCost (extendAll s x)).take s.num
  let fz := sdmFinalize s.latency pr
  ({ s with paths := fz.1, queue := s.queue ++ fz.2 }, fz.2)

/-- One engine step, state only. -/
def sdmStep1 (s : Sdm) (x : ℤ) : Sdm := (sdmStepE s x).1

/-- Run the engine over a list of input samples. -/
def sdmRun (s : Sdm) (input : List ℤ) : Sdm := input.foldl sdmStep1 s

/-- The finalized bits emitted while the engine processes the given
samples, in emission order. -/
def bitsOf (s : Sdm) : List ℤ → List Bool
  | [] => []
  | x :: xs => (sdmStepE s x).2 ++ bitsOf (sdmStep1 s x) xs

/-- The undecided history of the current lowest-cost candidate. -/
def bestPending (s : Sdm) : List Bool :=
  match s.paths with
  | [] => []
  | p :: _ => p.pending

/-- The common undecided-history length of the candidate set. -/
def plen (s : Sdm) : ℕ :=
  match s.paths with
  | [] => 0
  | p :: _ => p.pending.length

/-- Modelled from the spec: the consuming loop of `sdm_process` — one
extend/prune/finalize cycle per consumed sample, stopping early once the
pending output queue already fills the caller's output capacity.  Returns
the advanced state and the number of samples consumed. -/
def consumeLoop (s : Sdm) (ibuf : List ℤ) (cap : ℕ) : Sdm × ℕ :=
  match ibuf with
  | [] => (s, 0)
  | x :: xs =>
      if cap ≤ s.queue.length then (s, 0)
      else
        let r := consumeLoop (sdmStep1 s x) xs cap
        (r.1, r.2 + 1)

/-- Modelled from the spec: the successful path of `sdm_process` —
consume up to `ibuf.length` samples, then hand out as many finalized
output bits as fit in the output capacity `cap`, leaving the rest
queued.  Returns (new state, samples consumed, output bits). -/
def processGo (s : Sdm) (ibuf : List ℤ) (cap : ℕ) : Sdm × ℕ × List Bool :=
  let r := consumeLoop s ibuf cap
  ({ r.1 with queue := r.1.queue.drop cap }, r.2, r.1.queue.take cap)

/-- Error outcome of a streaming call. -/
inductive SdmError where
  | invalidArg
  deriving Repr, DecidableEq

/-- Modelled from the spec: `sdm_process` with its argument checking.  A
null input buffer (`none`), a null output buffer, or zero output capacity
with non-empty input is an invalid-argument error; otherwise the call
succeeds for every sample content. -/
def sdm_process (s : Sdm) (ibuf : Option (List ℤ)) (obufNull : Bool) (olen : ℕ) :
    Except SdmError (Sdm × ℕ × List Bool) :=
  match ibuf with
  | none => .error .invalidArg
  | some input =>
      if obufNull then .error .invalidArg
      else if olen = 0 ∧ input ≠ [] then .error .invalidArg
      else .ok (processGo s input olen)

/-- Modelled from the spec: `sdm_drain` — with no further input the
engine flushes, finalizing the undecided suffix of the currently best
candidate in order; up to `cap` finalized bits are returned, the rest
stay queued.  Once flushed, the candidate records have no further role
and the candidate set is cleared. -/
def sdm_drain (s : Sdm) (cap : ℕ) : Sdm × List Bool :=
  let all := s.queue ++ bestPending s
  ({ s with queue := all.drop cap, paths := [] }, all.take cap)

/-- `cnt` repeated `sdm_drain` calls of capacity `cap` each; outputs are
concatenated. -/
def drainN (s : Sdm) (cap : ℕ) : ℕ → Sdm × List Bool
  | 0 => (s, [])
  | k + 1 =>
      let r := sdm_drain s cap
      let r2 := drainN r.1 cap k
      (r2.1, r.2 ++ r2.2)

/-- A byte value from 8 bits, most significant bit first. -/
def byteOfBits (l : List Bool) : ℕ :=
  l.foldl (fun n b => 2 * n + (if b then 1 else 0)) 0

/-- The 8 bits of a byte value, most significant bit first. -/
def bitsOfByte (n : ℕ) : List Bool :=
  [n.testBit 7, n.testBit 6, n.testBit 5, n.testBit 4,
   n.testBit 3, n.testBit 2, n.testBit 1, n.testBit 0]

/-- All bits of a byte stream, in stream order. -/
def bytesBits (l : List ℕ) : List Bool :=
  l.foldr (fun n r => bitsOfByte n ++ r) []

/-- Modelled from the spec: the bit-pack accumulator.  Each finalized bit
is pushed into the partially filled byte; whenever it reaches 8 bits it
is emitted as one byte (most significant bit first).  Returns the new
accumulator contents and the emitted bytes. -/
def pushBits : List Bool → List Bool → List Bool × List ℕ
  | acc, [] => (acc, [])
  | acc, b :: bs =>
      if acc.length + 1 = 8 then
        let r := pushBits [] bs
        (r.1, byteOfBits (acc ++ [b]) :: r.2)
      else
        pushBits (acc ++ [b]) bs

/-- Modelled from the spec: `sdm_packet_process` — consumes exactly all
input samples (no partial-consumption contract), drives the same engine,
packs every finalized bit through the persistent accumulator and returns
the whole bytes produced. -/
def sdm_packet_process (s : Sdm) (input : List ℤ) : Sdm × List ℕ :=
  let s1 := sdmRun s input
  let r := pushBits s.acc s1.queue
  ({ s1 with queue := [], acc := r.1 }, r.2)

/-- Modelled from the spec: the end-of-stream flush of the bit-pack
accumulator — any remaining partial byte is zero-padded into one final
output byte appended to the byte stream. -/
def packetFinal (acc : List Bool) (bytes : List ℕ) : List ℕ :=
  if acc.isEmpty then bytes
  else bytes ++ [byteOfBits (acc ++ List.replicate (8 - acc.length) false)]

/-- Modelled from the spec: `sdm_packet_drain` — flushes the remaining
engine state exactly as `sdm_drain`, packs the resulting bits, and
zero-pads any final partial byte into one last output byte; at most
`outBufSize` bytes are returned. -/
def sdm_packet_drain (s : Sdm) (outBufSize : ℕ) : Sdm × List ℕ :=
  let bits := s.queue ++ bestPending s
  let r := pushBits s.acc bits
  ({ s with paths := [], queue := [], acc := [] }, (packetFinal r.1 r.2).take outBufSize)

/-- A full sample-domain run: one `sdm_process` call with output capacity
equal to the input length, then one ample `sdm_drain`. -/
def sdm_run_sample (s : Sdm) (input : List ℤ) : List Bool :=
  let r := processGo s input input.length
  let d := sdm_drain r.1 (s.latency + 8)
  r.2.2 ++ d.2

/-- A full packet-domain run: one `sdm_packet_process` call, then one
ample `sdm_packet_drain`. -/
def sdm_run_packet (s : Sdm) (input : List ℤ) : List ℕ :=
  let r := sdm_packet_process s input
  let d := sdm_packet_drain r.1 (input.length + 8)
  r.2 ++ d.2

/-- States reachable through the public API: construction followed by any
sequence of `sdm_process`, `sdm_packet_process`, `sdm_drain`,
`sdm_packet_drain` calls. -/
inductive SdmReachable : Sdm → Prop where
  | init (filter_name : String) (freq trellis_order trellis_num trellis_latency : ℕ)
      (s : Sdm) :
      sdm_init filter_name freq trellis_order trellis_num trellis_latency = some s →
      SdmReachable s
  | process (s : Sdm) (ibuf : List ℤ) (cap : ℕ) :
      SdmReachable s → SdmReachable (processGo s ibuf cap).1
  | packetProcess (s : Sdm) (input : List ℤ) :
      SdmReachable s → SdmReachable (sdm_packet_process s input).1
  | drain (s : Sdm) (cap : ℕ) :
      SdmReachable s → SdmReachable (sdm_drain s cap).1
  | packetDrain (s : Sdm) (cap : ℕ) :
      SdmReachable s → SdmReachable (sdm_packet_drain s cap).1

/-- States reachable through the packet API alone: construction followed
by `sdm_packet_process` / `sdm_packet_drain` calls. -/
inductive PacketReachable : Sdm → Prop where
  | init (filter_name : String) (freq trellis_order trellis_num trellis_latency : ℕ)
      (s : Sdm) :
      sdm_init filter_name freq trellis_order trellis_num trellis_latency = some s →
      PacketReachable s
  | packetProcess (s : Sdm) (input : List ℤ) :
      PacketReachable s → PacketReachable (sdm_packet_process s input).1
  | packetDrain (s : Sdm) (cap : ℕ) :
      PacketReachable s → PacketReachable (sdm_packet_drain s cap).1

/-! ## Structural lemmas about pruning and extension -/

theorem length_insertByCost (p : SdmPath) (l : List SdmPath) :
    (insertByCost p l).length = l.length + 1 := by
  induction l with
  | nil => rfl
  | cons q qs ih =>
      simp only [insertByCost]
      split
      · simp
      · simp [ih]

theorem mem_insertByCost {q p : SdmPath} {l : List SdmPath} :
    q ∈ insertByCost p l → q = p ∨ q ∈ l := by
  induction l with
  | nil => simp [insertByCost]
  | cons r rs ih =>
      simp only [insertByCost]
      split
      · intro h
        rcases List.mem_cons.mp h with h | h
        · exact Or.inl h
        · exact Or.inr h
      · intro h
        rcases List.mem_cons.mp h with h | h
        · exact Or.inr (by simp [h])
        · rcases ih h with h | h
          · exact Or.inl h
          · exact Or.inr (List.mem_cons_of_mem _ h)

theorem length_sortByCost (l : List SdmPath) :
    (sortByCost l).length = l.length := by
  induction l with
  | nil => rfl
  | cons p ps ih => simp [sortByCost, length_insertByCost, ih]

theorem mem_sortByCost {q : SdmPath} {l : List SdmPath} :
    q ∈ sortByCost l → q ∈ l := by
  induction l with
  | nil => simp [sortByCost]
  | cons p ps ih =>
      intro h
      rcases mem_insertByCost h with h | h
      · simp [h]
      · exact List.mem_cons_of_mem _ (ih h)

theorem sortByCost_ne_nil {l : List SdmPath} (h : l ≠ []) : sortByCost l ≠ [] := by
  intro hc
  apply h
  have := length_sortByCost l
  rw [hc] at this
  exact List.length_eq_zero.mp this.symm

theorem pending_extendPath (cs : List ℤ) (ord : ℕ) (x : ℤ) (p : SdmPath) (b : Bool) :
    (extendPath cs ord x p b).pending.length = p.pending.length + 1 := by
  simp [extendPath]

theorem mem_extendAll {s : Sdm} {x : ℤ} {q : SdmPath} :
    q ∈ extendAll s x → ∃ p ∈ s.paths, ∃ b, q = extendPath s.coeffs s.order x p b := by
  unfold extendAll
  induction s.paths with
  | nil => simp
  | cons r rs ih =>
      intro h
      simp only [List.foldr_cons] at h
      rcases List.mem_cons.mp h with h | h
      · exact ⟨r, by simp, false, h⟩
      · rcases List.mem_cons.mp h with h | h
        · exact ⟨r, by simp, true, h⟩
        · rcases ih h with ⟨p, hp, b, hb⟩
          exact ⟨p, List.mem_cons_of_mem _ hp, b, hb⟩

theorem extendAll_ne_nil {s : Sdm} (x : ℤ) (h : s.paths ≠ []) : extendAll s x ≠ [] := by
  unfold extendAll
  cases hp : s.paths with
  | nil => exact absurd hp h
  | cons r rs => simp

/-! ## Step lemmas -/

/-- The structural well-formedness of the candidate set: at most `num`
candidates, all with the same undecided-history length, which is at most
`trellis_latency`. -/
def SdmWf (s : Sdm) : Prop :=
  s.paths.length ≤ s.num ∧ (∀ p ∈ s.paths, p.pending.length = plen s) ∧
    plen s ≤ s.latency

/-- Well-formedness of a live (processing-phase) instance: additionally
the candidate set is non-empty and the beam width is positive. -/
def SdmLive (s : Sdm) : Prop :=
  SdmWf s ∧ s.paths ≠ [] ∧ 1 ≤ s.num

theorem sdmStep1_coeffs (s : Sdm) (x : ℤ) : (sdmStep1 s x).coeffs = s.coeffs := rfl

theorem sdmStep1_order (s : Sdm) (x : ℤ) : (sdmStep1 s x).order = s.order := rfl

theorem sdmStep1_num (s : Sdm) (x : ℤ) : (sdmStep1 s x).num = s.num := rfl

theorem sdmStep1_latency (s : Sdm) (x : ℤ) : (sdmStep1 s x).latency = s.latency := rfl

theorem sdmStep1_acc (s : Sdm) (x : ℤ) : (sdmStep1 s x).acc = s.acc := rfl

theorem sdmStep1_queue (s : Sdm) (x : ℤ) :
    (sdmStep1 s x).queue = s.queue ++ (sdmStepE s x).2 := rfl

theorem sdmStepE_emit_le (s : Sdm) (x : ℤ) : (sdmStepE s x).2.length ≤ 1 := by
  simp only [sdmStepE]
  cases h : (sortByCost (extendAll s x)).take s.num with
  | nil => simp [sdmFinalize]
  | cons best rest =>
      simp only [sdmFinalize]
      split <;> simp

theorem plen_eq_nil {s : Sdm} (h : s.paths = []) : plen s = 0 := by
  unfold plen; rw [h]

theorem plen_eq_cons {s : Sdm} {p : SdmPath} {ps : List SdmPath}
    (h : s.paths = p :: ps) : plen s = p.pending.length := by
  unfold plen; rw [h]

theorem bestPending_eq_nil {s : Sdm} (h : s.paths = []) : bestPending s = [] := by
  unfold bestPending; rw [h]

theorem bestPending_eq_cons {s : Sdm} {p : SdmPath} {ps : List SdmPath}
    (h : s.paths = p :: ps) : bestPending s = p.pending := by
  unfold bestPending; rw [h]

theorem bestPending_length {s : Sdm} (h : ∀ p ∈ s.paths, p.pending.length = plen s) :
    (bestPending s).length = if s.paths = [] then 0 else plen s := by
  cases hp : s.paths with
  | nil => simp [bestPending_eq_nil hp, hp]
  | cons p ps =>
      rw [bestPending_eq_cons hp, h p (by rw [hp]; exact List.mem_cons_self _ _)]
      simp [hp]

theorem pending_take_sorted {s : Sdm} (x : ℤ)
    (halign : ∀ p ∈ s.paths, p.pending.length = plen s) :
    ∀ q ∈ (sortByCost (extendAll s x)).take s.num, q.pending.length = plen s + 1 := by
  intro q hq
  rcases mem_extendAll (mem_sortByCost (List.take_subset _ _ hq)) with ⟨p, hp, b, rfl⟩
  rw [pending_extendPath, halign p hp]

theorem sdmStep1_wf {s : Sdm} (x : ℤ) (h : SdmWf s) : SdmWf (sdmStep1 s x) := by
  obtain ⟨hlen, halign, hlat⟩ := h
  have hmem := pending_take_sorted x halign
  have hlen' : ((sortByCost (extendAll s x)).take s.num).length ≤ s.num := by
    rw [List.length_take]; exact min_le_left _ _
  cases hp : (sortByCost (extendAll s x)).take s.num with
  | nil =>
      have hstep : sdmStep1 s x = { s with paths := [], queue := s.queue ++ [] } := by
        simp [sdmStep1, sdmStepE, hp, sdmFinalize]
      rw [hstep]
      refine ⟨by simp, by simp, ?_⟩
      rw [plen_eq_nil rfl]
      simp
  | cons best rest =>
      rw [hp] at hmem hlen'
      have hbest : best.pending.length = plen s + 1 := hmem best (List.mem_cons_self _ _)
      by_cases hfin : s.latency < best.pending.length
      · have hstep : sdmStep1 s x =
            { s with paths := trimOne best :: List.map trimOne rest,
                     queue := s.queue ++ [best.pending.headI] } := by
          simp [sdmStep1, sdmStepE, hp, sdmFinalize, hfin]
        have hplen : plen (sdmStep1 s x) = plen s := by
          rw [hstep, plen_eq_cons rfl]
          simp [trimOne, List.length_tail, hbest]
        refine ⟨?_, ?_, ?_⟩
        · rw [hstep]; simpa using hlen'
        · intro q hq
          rw [hplen]
          rw [hstep] at hq
          simp only [List.mem_cons] at hq
          rcases hq with rfl | hq
          · simp [trimOne, List.length_tail, hbest]
          · rcases List.mem_map.mp hq with ⟨r, hr, rfl⟩
            have := hmem r (List.mem_cons_of_mem _ hr)
            simp [trimOne, List.length_tail, this]
        · rw [hplen, hstep]
          exact le_trans hlat (by simp)
      · have hstep : sdmStep1 s x =
            { s with paths := best :: rest, queue := s.queue ++ [] } := by
          simp [sdmStep1, sdmStepE, hp, sdmFinalize, hfin]
        have hplen : plen (sdmStep1 s x) = plen s + 1 := by
          rw [hstep, plen_eq_cons rfl]; exact hbest
        refine ⟨?_, ?_, ?_⟩
        · rw [hstep]; simpa using hlen'
        · intro q hq
          rw [hplen]
          rw [hstep] at hq
          exact hmem q hq
        · rw [hplen, hstep]; simp; omega

theorem sdmStep1_live {s : Sdm} (x : ℤ) (h : SdmLive s) :
    SdmLive (sdmStep1 s x) ∧
      plen (sdmStep1 s x) = min (plen s + 1) s.latency ∧
      (sdmStepE s x).2.length = (plen s + 1) - min (plen s + 1) s.latency := by
  obtain ⟨⟨hlen, halign, hlat⟩, hne, hnum⟩ := h
  have hwf := sdmStep1_wf x ⟨hlen, halign, hlat⟩
  have hmem := pending_take_sorted x halign
  cases hp : (sortByCost (extendAll s x)).take s.num with
  | nil =>
      exfalso
      rcases List.take_eq_nil_iff.mp hp with h0 | h0
      · omega
      · exact sortByCost_ne_nil (extendAll_ne_nil x hne) h0
  | cons best rest =>
      rw [hp] at hmem
      have hbest : best.pending.length = plen s + 1 := hmem best (List.mem_cons_self _ _)
      by_cases hfin : s.latency < best.pending.length
      · have hstep : sdmStep1 s x =
            { s with paths := trimOne best :: List.map trimOne rest,
                     queue := s.queue ++ [best.pending.headI] } := by
          simp [sdmStep1, sdmStepE, hp, sdmFinalize, hfin]
        have hemit : (sdmStepE s x).2 = [best.pending.headI] := by
          simp [sdmStepE, hp, sdmFinalize, hfin]
        have hplen : plen (sdmStep1 s x) = plen s := by
          rw [hstep, plen_eq_cons rfl]
          simp [trimOne, List.length_tail, hbest]
        refine ⟨⟨hwf, ?_, ?_⟩, ?_, ?_⟩
        · rw [hstep]; simp
        · rw [hstep]; exact hnum
        · rw [hplen]; omega
        · rw [hemit]; simp; omega
      · have hstep : sdmStep1 s x =
            { s with paths := best :: rest, queue := s.queue ++ [] } := by
          simp [sdmStep1, sdmStepE, hp, sdmFinalize, hfin]
        have hemit : (sdmStepE s x).2 = [] := by
          simp [sdmStepE, hp, sdmFinalize, hfin]
        have hplen : plen (sdmStep1 s x) = plen s + 1 := by
          rw [hstep, plen_eq_cons rfl]; exact hbest
        refine ⟨⟨hwf, ?_, ?_⟩, ?_, ?_⟩
        · rw [hstep]; simp
        · rw [hstep]; exact hnum
        · rw [hplen]; omega
        · rw [hemit]; simp; omega

/-! ## Run lemmas -/

theorem sdmRun_nil (s : Sdm) : sdmRun s [] = s := rfl

theorem sdmRun_cons (s : Sdm) (x : ℤ) (xs : List ℤ) :
    sdmRun s (x :: xs) = sdmRun (sdmStep1 s x) xs := rfl

theorem sdmRun_append (s : Sdm) (xs ys : List ℤ) :
    sdmRun s (xs ++ ys) = sdmRun (sdmRun s xs) ys := by
  simp [sdmRun, List.foldl_append]

theorem bitsOf_append (s : Sdm) (xs ys : List ℤ) :
    bitsOf s (xs ++ ys) = bitsOf s xs ++ bitsOf (sdmRun s xs) ys := by
  induction xs generalizing s with
  | nil => simp [bitsOf, sdmRun]
  | cons x xs ih => simp [bitsOf, sdmRun_cons, ih, List.append_assoc]

theorem sdmRun_latency (s : Sdm) (xs : List ℤ) : (sdmRun s xs).latency = s.latency := by
  induction xs generalizing s with
  | nil => rfl
  | cons x xs ih => rw [sdmRun_cons, ih, sdmStep1_latency]

theorem sdmRun_num (s : Sdm) (xs : List ℤ) : (sdmRun s xs).num = s.num := by
  induction xs generalizing s with
  | nil => rfl
  | cons x xs ih => rw [sdmRun_cons, ih, sdmStep1_num]

theorem sdmRun_acc (s : Sdm) (xs : List ℤ) : (sdmRun s xs).acc = s.acc := by
  induction xs generalizing s with
  | nil => rfl
  | cons x xs ih => rw [sdmRun_cons, ih, sdmStep1_acc]

theorem sdmRun_queue (s : Sdm) (xs : List ℤ) :
    (sdmRun s xs).queue = s.queue ++ bitsOf s xs := by
  induction xs generalizing s with
  | nil => simp [sdmRun, bitsOf]
  | cons x xs ih =>
      rw [sdmRun_cons, ih, sdmStep1_queue]
      simp [bitsOf, List.append_assoc]

theorem sdmRun_live {s : Sdm} (xs : List ℤ) (h : SdmLive s) :
    SdmLive (sdmRun s xs) ∧
      plen (sdmRun s xs) = min (plen s + xs.length) s.latency ∧
      (bitsOf s xs).length = (plen s + xs.length) - min (plen s + xs.length) s.latency := by
  induction xs generalizing s with
  | nil =>
      have hlat : plen s ≤ s.latency := h.1.2.2
      refine ⟨h, ?_, ?_⟩ <;> simp [sdmRun, bitsOf] <;> omega
  | cons x xs ih =>
      obtain ⟨hlive', hplen', hemit'⟩ := sdmStep1_live x h
      obtain ⟨ih1, ih2, ih3⟩ := ih hlive'
      have hlat : plen s ≤ s.latency := h.1.2.2
      rw [sdmStep1_latency] at ih2 ih3
      refine ⟨by rw [sdmRun_cons]; exact ih1, ?_, ?_⟩
      · rw [sdmRun_cons, ih2, hplen']
        simp only [List.length_cons]
        omega
      · have : bitsOf s (x :: xs) = (sdmStepE s x).2 ++ bitsOf (sdmStep1 s x) xs := rfl
        rw [this, List.length_append, hemit', ih3, hplen']
        simp only [List.length_cons]
        omega

/-! ## Construction -/

theorem sdm_init_spec {name : String} {freq o nu lat : ℕ} {s : Sdm}
    (h : sdm_init name freq o nu lat = some s) :
    SdmLive s ∧ plen s = 0 ∧ s.queue = [] ∧ s.acc = [] ∧ s.latency = lat ∧
      s.num = max 1 nu ∧ s.paths = [initPath o] := by
  unfold sdm_init at h
  split at h
  · exact absurd h (by simp)
  · cases hfind : sdm_find_filter name freq with
    | none => rw [hfind] at h; exact absurd h (by simp)
    | some cs =>
        rw [hfind] at h
        have hs := Option.some.inj h
        subst hs
        refine ⟨⟨⟨?_, ?_, ?_⟩, ?_, ?_⟩, ?_, ?_, ?_, ?_, ?_, ?_⟩
        · simp
        · intro p hp
          simp only [List.mem_singleton] at hp
          subst hp
          rw [plen_eq_cons rfl]
        · rw [plen_eq_cons rfl]; simp [initPath]
        · simp
        · simp
        · rw [plen_eq_cons rfl]; simp [initPath]
        · rfl
        · rfl
        · rfl
        · rfl
        · rfl

/-! ## Sample-domain streaming lemmas -/

theorem sdmStep1_queue_le (s : Sdm) (x : ℤ) :
    (sdmStep1 s x).queue.length ≤ s.queue.length + 1 := by
  rw [sdmStep1_queue, List.length_append]
  have := sdmStepE_emit_le s x
  omega

theorem consumeLoop_spec (ibuf : List ℤ) (s : Sdm) (cap : ℕ) :
    ∃ n, consumeLoop s ibuf cap = (sdmRun s (ibuf.take n), n) ∧ n ≤ ibuf.length := by
  induction ibuf generalizing s with
  | nil => exact ⟨0, rfl, le_refl 0⟩
  | cons x xs ih =>
      by_cases hq : cap ≤ s.queue.length
      · refine ⟨0, ?_, by simp⟩
        simp [consumeLoop, hq, sdmRun]
      · rcases ih (sdmStep1 s x) with ⟨n, hn, hle⟩
        refine ⟨n + 1, ?_, by simpa using hle⟩
        simp only [consumeLoop, if_neg hq, hn]
        rfl

theorem consumeLoop_all (ibuf : List ℤ) (s : Sdm) (cap : ℕ)
    (h : s.queue.length + ibuf.length ≤ cap) :
    consumeLoop s ibuf cap = (sdmRun s ibuf, ibuf.length) := by
  induction ibuf generalizing s with
  | nil => rfl
  | cons x xs ih =>
      have hq : ¬ cap ≤ s.queue.length := by
        simp only [List.length_cons] at h
        omega
      have hstep := sdmStep1_queue_le s x
      have h' : (sdmStep1 s x).queue.length + xs.length ≤ cap := by
        simp only [List.length_cons] at h
        omega
      simp only [consumeLoop, if_neg hq, ih (sdmStep1 s x) h']
      rfl

/-! ## Drain lemmas -/

/-- The number of finalized-but-undelivered bits plus undecided bits still
owed to the caller. -/
def remaining (s : Sdm) : ℕ := s.queue.length + (bestPending s).length

theorem sdm_drain_queue (s : Sdm) (cap : ℕ) :
    ((sdm_drain s cap).1).queue = (s.queue ++ bestPending s).drop cap := rfl

theorem sdm_drain_paths (s : Sdm) (cap : ℕ) : ((sdm_drain s cap).1).paths = [] := rfl

theorem sdm_drain_out (s : Sdm) (cap : ℕ) :
    (sdm_drain s cap).2 = (s.queue ++ bestPending s).take cap := rfl

theorem remaining_sdm_drain (s : Sdm) (cap : ℕ) :
    remaining (sdm_drain s cap).1 = remaining s - cap := by
  unfold remaining
  rw [sdm_drain_queue, bestPending_eq_nil (sdm_drain_paths s cap)]
  simp

theorem drainN_paths (s : Sdm) (cap k : ℕ) (hk : 1 ≤ k) :
    ((drainN s cap k).1).paths = [] := by
  induction k generalizing s with
  | zero => omega
  | succ k ih =>
      by_cases hk0 : k = 0
      · subst hk0
        simp [drainN, sdm_drain_paths]
      · exact ih (sdm_drain s cap).1 (by omega)

theorem drainN_remaining (k : ℕ) (s : Sdm) (cap : ℕ) :
    remaining (drainN s cap k).1 = remaining s - cap * k ∧
      ((drainN s cap k).2).length = min (remaining s) (cap * k) := by
  induction k generalizing s with
  | zero => simp [drainN]
  | succ k ih =>
      obtain ⟨ih1, ih2⟩ := ih (sdm_drain s cap).1
      have hrem := remaining_sdm_drain s cap
      have hout : ((sdm_drain s cap).2).length = min cap (remaining s) := by
        rw [sdm_drain_out, List.length_take, List.length_append]
        unfold remaining
        omega
      constructor
      · show remaining (drainN (sdm_drain s cap).1 cap k).1 = _
        rw [ih1, hrem]
        ring_nf
        omega
      · show ((sdm_drain s cap).2 ++ (drainN (sdm_drain s cap).1 cap k).2).length = _
        rw [List.length_append, ih2, hrem, hout]
        have : cap * (k + 1) = cap + cap * k := by ring
        omega

theorem drain_reports_zero_iff (s : Sdm) (cap : ℕ) (hc : 1 ≤ cap) :
    (sdm_drain s cap).2 = [] ↔ remaining s = 0 := by
  rw [sdm_drain_out]
  constructor
  · intro h
    rcases List.take_eq_nil_iff.mp h with h | h
    · omega
    · unfold remaining
      rw [List.append_eq_nil] at h
      simp [h.1, h.2]
  · intro h
    unfold remaining at h
    have h1 : s.queue = [] := by
      have := List.length_eq_zero.mp (by omega : s.queue.length = 0)
      exact this
    have h2 : bestPending s = [] :=
      List.length_eq_zero.mp (by omega : (bestPending s).length = 0)
    simp [h1, h2]

/-! ## Bit packing lemmas -/

theorem bytesBits_nil : bytesBits [] = [] := rfl

theorem bytesBits_cons (n : ℕ) (l : List ℕ) :
    bytesBits (n :: l) = bitsOfByte n ++ bytesBits l := rfl

theorem bytesBits_append (l1 l2 : List ℕ) :
    bytesBits (l1 ++ l2) = bytesBits l1 ++ bytesBits l2 := by
  induction l1 with
  | nil => rfl
  | cons n l ih => simp [bytesBits_cons, ih, List.append_assoc]

theorem bitsOfByte_byteOfBits {l : List Bool} (hl : l.length = 8) :
    bitsOfByte (byteOfBits l) = l := by
  rcases l with _ | ⟨p1, _ | ⟨p2, _ | ⟨p3, _ | ⟨p4, _ | ⟨p5, _ | ⟨p6, _ | ⟨p7, _ | ⟨p8, t⟩⟩⟩⟩⟩⟩⟩⟩
  · simp at hl
  · simp at hl
  · simp at hl
  · simp at hl
  · simp at hl
  · simp at hl
  · simp at hl
  · simp at hl
  · have ht : t = [] := by
      simp only [List.length_cons] at hl
      exact List.length_eq_zero.mp (by omega)
    subst ht
    cases p1 <;> cases p2 <;> cases p3 <;> cases p4 <;>
      cases p5 <;> cases p6 <;> cases p7 <;> cases p8 <;> decide

theorem pushBits_spec (bs : List Bool) : ∀ acc : List Bool, acc.length < 8 →
    bytesBits (pushBits acc bs).2 ++ (pushBits acc bs).1 = acc ++ bs ∧
    (pushBits acc bs).1.length = (acc.length + bs.length) % 8 ∧
    (pushBits acc bs).2.length = (acc.length + bs.length) / 8 := by
  induction bs with
  | nil =>
      intro acc hacc
      refine ⟨by simp [pushBits, bytesBits], ?_, ?_⟩
      · simp only [pushBits, List.length_nil]
        omega
      · simp only [pushBits, List.length_nil]
        omega
  | cons b bs ih =>
      intro acc hacc
      by_cases hfull : acc.length + 1 = 8
      · have h8 : (acc ++ [b]).length = 8 := by simp; omega
        obtain ⟨e1, e2, e3⟩ := ih [] (by norm_num)
        have hdef : pushBits acc (b :: bs) =
            ((pushBits [] bs).1, byteOfBits (acc ++ [b]) :: (pushBits [] bs).2) := by
          simp [pushBits, hfull]
        rw [hdef]
        refine ⟨?_, ?_, ?_⟩
        · show bytesBits (byteOfBits (acc ++ [b]) :: (pushBits [] bs).2) ++ _ = _
          rw [bytesBits_cons, List.append_assoc, e1, bitsOfByte_byteOfBits h8]
          simp
        · show (pushBits [] bs).1.length = _
          rw [e2]
          simp only [List.length_nil, List.length_cons]
          omega
        · show (byteOfBits (acc ++ [b]) :: (pushBits [] bs).2).length = _
          rw [List.length_cons, e3]
          simp only [List.length_nil, List.length_cons]
          omega
      · have hlt : (acc ++ [b]).length < 8 := by simp; omega
        obtain ⟨e1, e2, e3⟩ := ih (acc ++ [b]) hlt
        have hdef : pushBits acc (b :: bs) = pushBits (acc ++ [b]) bs := by
          simp [pushBits, hfull]
        rw [hdef]
        refine ⟨?_, ?_, ?_⟩
        · rw [e1]; simp
        · rw [e2]
          simp only [List.length_append, List.length_cons, List.length_nil]
          omega
        · rw [e3]
          simp only [List.length_append, List.length_cons, List.length_nil]
          omega

/-! ## Further helper lemmas -/

theorem bitsOf_length_le (s : Sdm) (xs : List ℤ) : (bitsOf s xs).length ≤ xs.length := by
  induction xs generalizing s with
  | nil => simp [bitsOf]
  | cons x xs ih =>
      have h1 := sdmStepE_emit_le s x
      have h2 := ih (sdmStep1 s x)
      simp only [bitsOf, List.length_append, List.length_cons]
      omega

theorem processGo_from_empty_queue {s0 : Sdm} (input : List ℤ) (hq0 : s0.queue = []) :
    processGo s0 input input.length =
      ({ sdmRun s0 input with queue := [] }, input.length, bitsOf s0 input) := by
  have hqr : (sdmRun s0 input).queue = bitsOf s0 input := by
    rw [sdmRun_queue, hq0, List.nil_append]
  have hlen : (sdmRun s0 input).queue.length ≤ input.length := by
    rw [hqr]; exact bitsOf_length_le s0 input
  have hlen' : (bitsOf s0 input).length ≤ input.length := bitsOf_length_le s0 input
  simp only [processGo, consumeLoop_all input s0 input.length (by rw [hq0]; simp),
    hqr, List.drop_eq_nil_of_le hlen', List.take_of_length_le hlen']

/-- A fixed well-formed instance used to instantiate theorems on concrete
inputs: the result of constructing with filter "sdm-4" at the base rate,
trellis order 4, beam width 2, latency 3. -/
def sdmS4 : Sdm :=
  { coeffs := [128, 64, 32, 16], order := 4, num := 2, latency := 3,
    paths := [initPath 4], queue := [], acc := [] }

/-- A fixed degenerate instance (beam width 1, latency 0) used to
instantiate theorems on concrete inputs. -/
def sdmZ : Sdm :=
  { coeffs := [128, 64, 32, 16], order := 4, num := 1, latency := 0,
    paths := [initPath 4], queue := [], acc := [] }

/-! ## Claim theorems -/

/-- C5: for every construction attempt, an unrecognized filter name, or
`trellis_order > 32`, or `trellis_num > 32`, or `trellis_latency > 2048`
makes `sdm_init` fail with a configuration error, yielding no instance. -/
theorem sdm_init_rejects_bad_config (filter_name : String)
    (freq trellis_order trellis_num trellis_latency : ℕ)
    (h : sdm_find_filter filter_name freq = none ∨
      SDM_TRELLIS_MAX_ORDER < trellis_order ∨ SDM_TRELLIS_MAX_NUM < trellis_num ∨
      SDM_TRELLIS_MAX_LAT < trellis_latency) :
    sdm_init filter_name freq trellis_order trellis_num trellis_latency = none := by
  unfold sdm_init
  rcases h with h | h | h | h
  · split
    · rfl
    · rw [h]
  · rw [if_pos (Or.inl h)]
  · rw [if_pos (Or.inr (Or.inl h))]
  · rw [if_pos (Or.inr (Or.inr h))]

theorem sdm_init_rejects_bad_config_witness :
    sdm_init "sdm-4" 44100 33 4 16 = none :=
  sdm_init_rejects_bad_config "sdm-4" 44100 33 4 16 (Or.inr (Or.inl (by decide)))

/-- C1: for every configuration and every input stream, two freshly
constructed instances with the same configuration produce identical
output, both through the sample-domain process+drain cycle and through
the packet-domain packet_process+packet_drain cycle. -/
theorem sdm_determinism (filter_name : String) (freq o nu lat : ℕ) (s1 s2 : Sdm)
    (input : List ℤ)
    (h1 : sdm_init filter_name freq o nu lat = some s1)
    (h2 : sdm_init filter_name freq o nu lat = some s2) :
    sdm_run_sample s1 input = sdm_run_sample s2 input ∧
      sdm_run_packet s1 input = sdm_run_packet s2 input := by
  have hs : s1 = s2 := Option.some.inj (h1.symm.trans h2)
  subst hs
  exact ⟨rfl, rfl⟩

theorem sdm_determinism_witness :
    sdm_run_sample sdmS4 [0, 3, -2] = sdm_run_sample sdmS4 [0, 3, -2] ∧
      sdm_run_packet sdmS4 [0, 3, -2] = sdm_run_packet sdmS4 [0, 3, -2] :=
  sdm_determinism "sdm-4" 2822400 4 2 3 sdmS4 sdmS4 [0, 3, -2] (by decide) (by decide)

/-- C6: a `sdm_process` call succeeds exactly when the arguments are
valid (non-null buffers, and non-zero output capacity whenever the input
is non-empty) — never failing because of sample values — and on success
it consumes at most the requested number of samples, produces at most the
given capacity of output, having advanced the engine by exactly the
consumed prefix and delivered exactly the queued finalized bits that fit. -/
theorem sdm_process_contract (s : Sdm) (ibuf : Option (List ℤ)) (obufNull : Bool)
    (olen : ℕ) :
    ((∃ r, sdm_process s ibuf obufNull olen = .ok r) ↔
      (ibuf ≠ none ∧ obufNull = false ∧ (olen = 0 → ibuf = some []))) ∧
    (∀ input s' n out, ibuf = some input →
      sdm_process s ibuf obufNull olen = .ok (s', n, out) →
      n ≤ input.length ∧ out.length ≤ olen ∧
      s' = { sdmRun s (input.take n) with
             queue := (sdmRun s (input.take n)).queue.drop olen } ∧
      out = (sdmRun s (input.take n)).queue.take olen) := by
  constructor
  · cases ibuf with
    | none => simp [sdm_process]
    | some input =>
        by_cases hob : obufNull
        · simp [sdm_process, hob]
        · by_cases hz : olen = 0 ∧ input ≠ []
          · simp [sdm_process, hob, hz]
          · simp only [sdm_process, if_neg hob, if_neg hz]
            simp only [not_and, not_not] at hz
            constructor
            · intro _
              refine ⟨by simp, by simp [hob], ?_⟩
              intro h0
              by_cases he : input = []
              · simp [he]
              · exact absurd (hz h0) he
            · intro _
              exact ⟨processGo s input olen, rfl⟩
  · intro input s' n out hin hok
    subst hin
    by_cases hob : obufNull
    · simp [sdm_process, hob] at hok
    · by_cases hz : olen = 0 ∧ input ≠ []
      · simp [sdm_process, hob, hz] at hok
      · simp only [sdm_process, if_neg hob, if_neg hz] at hok
        obtain ⟨m, hm, hmle⟩ := consumeLoop_spec input s olen
        have heq : processGo s input olen = (s', n, out) := Except.ok.inj hok
        unfold processGo at heq
        rw [hm] at heq
        rw [Prod.ext_iff] at heq
        obtain ⟨hfst, hsnd⟩ := heq
        rw [Prod.ext_iff] at hsnd
        obtain ⟨hn, hout⟩ := hsnd
        simp only at hfst hn hout
        subst hn
        refine ⟨hmle, ?_, hfst.symm, hout.symm⟩
        rw [← hout, List.length_take]
        exact min_le_left _ _

theorem sdm_process_contract_witness :
    1 ≤ [(0:ℤ)].length ∧ ([] : List Bool).length ≤ 3 := by
  have h := (sdm_process_contract sdmS4 (some [0]) false 3).2 [0]
    { sdmRun sdmS4 [0] with queue := [] } 1 [] rfl (by rfl)
  exact ⟨h.1, h.2.1⟩

/-- C2: the n-th finalized output bit depends only on input samples
`0..n+trellis_latency`: two separately constructed, identically configured
instances fed input streams that agree on samples `0..n+trellis_latency`
produce identical first `n` finalized output bits. -/
theorem sdm_latency_bound (filter_name : String) (freq o nu lat : ℕ) (s1 s2 : Sdm)
    (xs ys : List ℤ) (n : ℕ)
    (h1 : sdm_init filter_name freq o nu lat = some s1)
    (h2 : sdm_init filter_name freq o nu lat = some s2)
    (hagree : xs.take (n + lat + 1) = ys.take (n + lat + 1)) :
    (bitsOf s1 xs).take n = (bitsOf s2 ys).take n := by
  have hs : s1 = s2 := Option.some.inj (h1.symm.trans h2)
  subst hs
  obtain ⟨hlive, hplen0, hq0, hacc0, hlatf, hnumf, hpathsf⟩ := sdm_init_spec h1
  have hlentake := congrArg List.length hagree
  rw [List.length_take, List.length_take] at hlentake
  by_cases hxlen : n + lat + 1 ≤ xs.length
  · have hylen : n + lat + 1 ≤ ys.length := by omega
    have key : ∀ zs : List ℤ, n + lat + 1 ≤ zs.length →
        (bitsOf s1 zs).take n = (bitsOf s1 (zs.take (n + lat + 1))).take n := by
      intro zs hz
      conv_lhs => rw [← List.take_append_drop (n + lat + 1) zs]
      rw [bitsOf_append, List.take_append_eq_append_take]
      have hblen : (bitsOf s1 (zs.take (n + lat + 1))).length = n + 1 := by
        have hr := (sdmRun_live (zs.take (n + lat + 1)) hlive).2.2
        rw [hplen0, hlatf, List.length_take] at hr
        rw [hr]
        omega
      rw [hblen]
      have hn0 : n - (n + 1) = 0 := by omega
      rw [hn0]
      simp
    rw [key xs hxlen, key ys hylen, hagree]
  · have hxeq : xs.take (n + lat + 1) = xs := List.take_of_length_le (by omega)
    have hyeq : ys.take (n + lat + 1) = ys := List.take_of_length_le (by omega)
    rw [hxeq, hyeq] at hagree
    rw [hagree]

theorem sdm_latency_bound_witness :
    (bitsOf sdmS4 [0, 3, -2, 1, 0, 0]).take 1 = (bitsOf sdmS4 [0, 3, -2, 1, 0, 7]).take 1 :=
  sdm_latency_bound "sdm-4" 2822400 4 2 3 sdmS4 sdmS4
    [0, 3, -2, 1, 0, 0] [0, 3, -2, 1, 0, 7] 1 (by decide) (by decide) (by decide)

/-- C3: for every finite input stream, a process call consuming the whole
input followed by repeated drain calls until a drain reports zero output
produces exactly as many finalized output samples as input samples were
consumed. -/
theorem sdm_conservation (filter_name : String) (freq o nu lat : ℕ) (s0 : Sdm)
    (input : List ℤ) (cap : ℕ)
    (h : sdm_init filter_name freq o nu lat = some s0) (hcap : 1 ≤ cap) :
    ∃ k : ℕ,
      (processGo s0 input input.length).2.1 = input.length ∧
      ((processGo s0 input input.length).2.2).length +
        ((drainN (processGo s0 input input.length).1 cap k).2).length = input.length ∧
      (sdm_drain (drainN (processGo s0 input input.length).1 cap k).1 cap).2 = [] := by
  obtain ⟨hlive, hplen0, hq0, hacc0, hlatf, hnumf, hpathsf⟩ := sdm_init_spec h
  obtain ⟨hRlive, hRplen, hRbits⟩ := sdmRun_live input hlive
  rw [hplen0, hlatf] at hRplen hRbits
  have hpg := processGo_from_empty_queue input hq0
  have hbp : (bestPending (sdmRun s0 input)).length = plen (sdmRun s0 input) := by
    rw [bestPending_length hRlive.1.2.1, if_neg hRlive.2.1]
  have hrem : remaining ({ sdmRun s0 input with queue := [] } : Sdm) = min input.length lat := by
    unfold remaining
    have hbpr : bestPending ({ sdmRun s0 input with queue := [] } : Sdm) =
        bestPending (sdmRun s0 input) := rfl
    rw [hbpr, hbp, hRplen]
    simp
  refine ⟨min input.length lat, ?_, ?_, ?_⟩
  · rw [hpg]
  · rw [hpg]
    have hdr := (drainN_remaining (min input.length lat)
      ({ sdmRun s0 input with queue := [] } : Sdm) cap).2
    rw [hrem] at hdr
    have hck : min input.length lat ≤ cap * min input.length lat :=
      Nat.le_mul_of_pos_left _ hcap
    obtain ⟨T, hT⟩ : ∃ T, cap * min input.length lat = T := ⟨_, rfl⟩
    rw [hT] at hdr hck
    simp only at hdr ⊢
    rw [hdr, hRbits]
    omega
  · rw [hpg]
    have hdr := (drainN_remaining (min input.length lat)
      ({ sdmRun s0 input with queue := [] } : Sdm) cap).1
    rw [hrem] at hdr
    have hck : min input.length lat ≤ cap * min input.length lat :=
      Nat.le_mul_of_pos_left _ hcap
    obtain ⟨T, hT⟩ : ∃ T, cap * min input.length lat = T := ⟨_, rfl⟩
    rw [hT] at hdr hck
    refine (drain_reports_zero_iff _ cap hcap).mpr ?_
    simp only at hdr ⊢
    rw [hdr]
    omega

theorem sdm_conservation_witness :
    ∃ k : ℕ,
      (processGo sdmS4 [0, 3, -2, 1] 4).2.1 = 4 ∧
      ((processGo sdmS4 [0, 3, -2, 1] 4).2.2).length +
        ((drainN (processGo sdmS4 [0, 3, -2, 1] 4).1 1 k).2).length = 4 ∧
      (sdm_drain (drainN (processGo sdmS4 [0, 3, -2, 1] 4).1 1 k).1 1).2 = [] :=
  sdm_conservation "sdm-4" 2822400 4 2 3 sdmS4 [0, 3, -2, 1] 1 (by decide) (by decide)

/-- C8: after input exhaustion, repeated drain calls terminate: finitely
many calls reach a drain that reports zero further output, and at that
point the candidate set and the pending output queue are both empty. -/
theorem sdm_drain_complete (s : Sdm) (cap : ℕ) (hcap : 1 ≤ cap) :
    ∃ k : ℕ,
      ((drainN s cap k).1).queue = [] ∧ ((drainN s cap k).1).paths = [] ∧
      (sdm_drain (drainN s cap k).1 cap).2 = [] := by
  refine ⟨remaining s + 1, ?_, ?_, ?_⟩
  all_goals
    have hp := drainN_paths s cap (remaining s + 1) (by omega)
    have h1 := (drainN_remaining (remaining s + 1) s cap).1
    have hle : remaining s + 1 ≤ cap * (remaining s + 1) := Nat.le_mul_of_pos_left _ hcap
    obtain ⟨T, hT⟩ : ∃ T, cap * (remaining s + 1) = T := ⟨_, rfl⟩
    rw [hT] at h1 hle
    have hz : remaining (drainN s cap (remaining s + 1)).1 = 0 := by omega
  · have hqle : ((drainN s cap (remaining s + 1)).1).queue.length ≤
        remaining (drainN s cap (remaining s + 1)).1 := Nat.le_add_right _ _
    rw [hz] at hqle
    exact List.length_eq_zero.mp (by omega)
  · exact hp
  · exact (drain_reports_zero_iff _ cap hcap).mpr hz

theorem sdm_drain_complete_witness :
    ∃ k : ℕ,
      ((drainN sdmS4 1 k).1).queue = [] ∧ ((drainN sdmS4 1 k).1).paths = [] ∧
      (sdm_drain (drainN sdmS4 1 k).1 1).2 = [] :=
  sdm_drain_complete sdmS4 1 (by decide)

theorem sdmWf_of_paths_eq {s t : Sdm} (h : SdmWf s) (hp : t.paths = s.paths)
    (hn : t.num = s.num) (hl : t.latency = s.latency) : SdmWf t := by
  have hplen : plen t = plen s := by unfold plen; rw [hp]
  obtain ⟨h1, h2, h3⟩ := h
  refine ⟨by rw [hp, hn]; exact h1, ?_, by rw [hplen, hl]; exact h3⟩
  intro p hpmem
  rw [hplen]
  exact h2 p (hp ▸ hpmem)

theorem sdmRun_wf {s : Sdm} (xs : List ℤ) (h : SdmWf s) : SdmWf (sdmRun s xs) := by
  induction xs generalizing s with
  | nil => exact h
  | cons x xs ih => exact ih (sdmStep1_wf x h)

theorem sdm_drain_wf (s : Sdm) (cap : ℕ) : SdmWf (sdm_drain s cap).1 := by
  refine ⟨?_, ?_, ?_⟩
  · rw [sdm_drain_paths]; simp
  · intro p hp
    rw [sdm_drain_paths] at hp
    simp at hp
  · rw [plen_eq_nil (sdm_drain_paths s cap)]; simp

theorem sdm_packet_drain_paths (s : Sdm) (cap : ℕ) :
    ((sdm_packet_drain s cap).1).paths = [] := rfl

theorem sdm_packet_drain_wf (s : Sdm) (cap : ℕ) : SdmWf (sdm_packet_drain s cap).1 := by
  refine ⟨?_, ?_, ?_⟩
  · rw [sdm_packet_drain_paths]; simp
  · intro p hp
    rw [sdm_packet_drain_paths] at hp
    simp at hp
  · rw [plen_eq_nil (sdm_packet_drain_paths s cap)]; simp

theorem processGo_wf (s : Sdm) (ibuf : List ℤ) (cap : ℕ) (h : SdmWf s) :
    SdmWf (processGo s ibuf cap).1 := by
  obtain ⟨m, hm, -⟩ := consumeLoop_spec ibuf s cap
  refine sdmWf_of_paths_eq (sdmRun_wf (ibuf.take m) h) ?_ ?_ ?_ <;>
    simp only [processGo, hm]

theorem sdm_packet_process_wf (s : Sdm) (input : List ℤ) (h : SdmWf s) :
    SdmWf (sdm_packet_process s input).1 :=
  sdmWf_of_paths_eq (sdmRun_wf input h) rfl rfl rfl

theorem sdmReachable_wf {s : Sdm} (h : SdmReachable s) : SdmWf s := by
  induction h with
  | init filter_name freq o nu lat s hi => exact (sdm_init_spec hi).1.1
  | process s ibuf cap hr ih => exact processGo_wf s ibuf cap ih
  | packetProcess s input hr ih => exact sdm_packet_process_wf s input ih
  | drain s cap hr ih => exact sdm_drain_wf s cap
  | packetDrain s cap hr ih => exact sdm_packet_drain_wf s cap

/-- C9: in every reachable state — after construction and after each
process / packet_process / drain step — the candidate set holds at most
`trellis_num` entries, and all candidate paths carry the same number of
undecided bits, at most `trellis_latency` of them (they diverge only in
that undecided suffix; the decided history is common). -/
theorem sdm_candidate_invariant (s : Sdm) (h : SdmReachable s) :
    s.paths.length ≤ s.num ∧ (∀ p ∈ s.paths, p.pending.length ≤ s.latency) ∧
      ∀ p ∈ s.paths, ∀ q ∈ s.paths, p.pending.length = q.pending.length := by
  obtain ⟨h1, h2, h3⟩ := sdmReachable_wf h
  refine ⟨h1, ?_, ?_⟩
  · intro p hp
    rw [h2 p hp]
    exact h3
  · intro p hp q hq
    rw [h2 p hp, h2 q hq]

theorem sdm_candidate_invariant_witness :
    sdmS4.paths.length ≤ sdmS4.num ∧
      (∀ p ∈ sdmS4.paths, p.pending.length ≤ sdmS4.latency) ∧
      ∀ p ∈ sdmS4.paths, ∀ q ∈ sdmS4.paths, p.pending.length = q.pending.length :=
  sdm_candidate_invariant sdmS4 (SdmReachable.init "sdm-4" 2822400 4 2 3 sdmS4 (by decide))

/-- C7: a `sdm_packet_process` call consumes exactly all its input
samples (the candidate state is that of the engine run over the whole
input), packs every finalized bit through the persistent accumulator —
the emitted bytes followed by the new accumulator contents spell exactly
the old accumulator contents followed by the finalized bits — keeps fewer
than 8 bits in the accumulator, and returns the count of whole bytes
produced. -/
theorem sdm_packet_process_contract (s : Sdm) (input : List ℤ)
    (hacc : s.acc.length < 8) :
    ((sdm_packet_process s input).1).paths = (sdmRun s input).paths ∧
    bytesBits (sdm_packet_process s input).2 ++ ((sdm_packet_process s input).1).acc =
      s.acc ++ (s.queue ++ bitsOf s input) ∧
    ((sdm_packet_process s input).1).acc.length < 8 ∧
    (sdm_packet_process s input).2.length =
      (s.acc.length + (s.queue.length + (bitsOf s input).length)) / 8 := by
  obtain ⟨e1, e2, e3⟩ := pushBits_spec (sdmRun s input).queue s.acc hacc
  have hq : (sdmRun s input).queue = s.queue ++ bitsOf s input := sdmRun_queue s input
  have hacc' : ((sdm_packet_process s input).1).acc =
      (pushBits s.acc (sdmRun s input).queue).1 := rfl
  have hbytes : (sdm_packet_process s input).2 =
      (pushBits s.acc (sdmRun s input).queue).2 := rfl
  refine ⟨rfl, ?_, ?_, ?_⟩
  · rw [hbytes, hacc', e1, hq]
  · rw [hacc', e2]
    omega
  · rw [hbytes, e3, hq, List.length_append]

theorem sdm_packet_process_contract_witness :
    ((sdm_packet_process sdmS4 [0, 1]).1).acc.length < 8 :=
  (sdm_packet_process_contract sdmS4 [0, 1] (by decide)).2.2.1

theorem packetReachable_inv {s : Sdm} (h : PacketReachable s) :
    s.queue = [] ∧ s.acc.length < 8 := by
  induction h with
  | init filter_name freq o nu lat s hi =>
      obtain ⟨-, -, hq, hacc, -, -, -⟩ := sdm_init_spec hi
      exact ⟨hq, by rw [hacc]; simp⟩
  | packetProcess s input hr ih =>
      obtain ⟨hq, hacc⟩ := ih
      refine ⟨rfl, ?_⟩
      have he := (pushBits_spec (sdmRun s input).queue s.acc hacc).2.1
      show (pushBits s.acc (sdmRun s input).queue).1.length < 8
      rw [he]
      omega
  | packetDrain s cap hr ih =>
      refine ⟨rfl, ?_⟩
      show ([] : List Bool).length < 8
      decide

/-- C10: from any state reachable through the packet API (whose
accumulator carries at most 7 pending bits), a `sdm_packet_process` call
with `in_len` samples writes at most `(in_len + 7) / 8` bytes — and this
can exceed `in_len / 8` by one byte when carried-over bits complete an
extra byte, so the safe write bound is the ceiling, not the documented
`in_len / 8`. -/
theorem sdm_packet_process_output_bound :
    (∀ (s : Sdm) (input : List ℤ), PacketReachable s →
      (sdm_packet_process s input).2.length ≤ (input.length + 7) / 8) ∧
    PacketReachable (sdm_packet_process sdmZ (List.replicate 7 0)).1 ∧
    (sdm_packet_process (sdm_packet_process sdmZ (List.replicate 7 0)).1 [0]).2.length = 1 ∧
    1 > [(0:ℤ)].length / 8 := by
  refine ⟨?_, ?_, ?_, ?_⟩
  · intro s input hr
    obtain ⟨hq, hacc⟩ := packetReachable_inv hr
    have e3 := (pushBits_spec (sdmRun s input).queue s.acc hacc).2.2
    have hql : (sdmRun s input).queue.length = (bitsOf s input).length := by
      rw [sdmRun_queue, hq, List.nil_append]
    have hbl := bitsOf_length_le s input
    show (pushBits s.acc (sdmRun s input).queue).2.length ≤ _
    rw [e3, hql]
    omega
  · exact PacketReachable.packetProcess sdmZ (List.replicate 7 0)
      (PacketReachable.init "sdm-4" 2822400 4 1 0 sdmZ (by decide))
  · decide
  · decide

theorem sdm_packet_process_output_bound_witness :
    (sdm_packet_process sdmZ [0, 0, 0]).2.length ≤ ([(0:ℤ), 0, 0].length + 7) / 8 :=
  sdm_packet_process_output_bound.1 sdmZ [0, 0, 0]
    (PacketReachable.init "sdm-4" 2822400 4 1 0 sdmZ (by decide))

/-! ## Packing round trip -/

theorem packetFinal_spec (acc : List Bool) (bytes : List ℕ) (hacc : acc.length < 8) :
    ∃ padLen : ℕ, padLen < 8 ∧
      bytesBits (packetFinal acc bytes) = bytesBits bytes ++ acc ++ List.replicate padLen false ∧
      (packetFinal acc bytes).length ≤ bytes.length + 1 := by
  by_cases hemp : acc.isEmpty
  · have hnil : acc = [] := List.isEmpty_iff.mp hemp
    subst hnil
    exact ⟨0, by omega, by simp [packetFinal], by simp [packetFinal]⟩
  · have hge : 1 ≤ acc.length := by
      cases acc with
      | nil => simp at hemp
      | cons a t => simp
    refine ⟨8 - acc.length, by omega, ?_, ?_⟩
    · unfold packetFinal
      rw [if_neg hemp]
      rw [bytesBits_append, bytesBits_cons, bytesBits_nil, List.append_nil]
      rw [bitsOfByte_byteOfBits (by simp; omega)]
      simp [List.append_assoc]
    · unfold packetFinal
      rw [if_neg hemp]
      simp

theorem packRun_spec (bits1 bits2 : List Bool) (cap : ℕ)
    (hcap : bits2.length + 8 ≤ cap) :
    ∃ padLen : ℕ, padLen < 8 ∧
      bytesBits ((pushBits [] bits1).2 ++
        (packetFinal (pushBits (pushBits [] bits1).1 bits2).1
          (pushBits (pushBits [] bits1).1 bits2).2).take cap) =
      (bits1 ++ bits2) ++ List.replicate padLen false := by
  obtain ⟨e1, e2, e3⟩ := pushBits_spec bits1 [] (by decide)
  have ha1 : (pushBits [] bits1).1.length < 8 := by
    rw [e2]
    simp only [List.length_nil]
    omega
  obtain ⟨f1, f2, f3⟩ := pushBits_spec bits2 (pushBits [] bits1).1 ha1
  have ha2 : (pushBits (pushBits [] bits1).1 bits2).1.length < 8 := by
    rw [f2]
    omega
  obtain ⟨padLen, hp8, hpf, hpl⟩ := packetFinal_spec (pushBits (pushBits [] bits1).1 bits2).1
    (pushBits (pushBits [] bits1).1 bits2).2 ha2
  have hfl : (packetFinal (pushBits (pushBits [] bits1).1 bits2).1
      (pushBits (pushBits [] bits1).1 bits2).2).length ≤ cap := by
    have h3 := f3
    rw [e2] at h3
    simp only [List.length_nil, Nat.zero_add] at h3
    omega
  refine ⟨padLen, hp8, ?_⟩
  rw [List.take_of_length_le hfl, bytesBits_append, hpf, f1]
  simp only [← List.append_assoc]
  rw [e1]
  simp

theorem sdm_packet_drain_out (s : Sdm) (cap : ℕ) :
    (sdm_packet_drain s cap).2 =
      (packetFinal (pushBits s.acc (s.queue ++ bestPending s)).1
        (pushBits s.acc (s.queue ++ bestPending s)).2).take cap := rfl

theorem sdm_packet_process_snd (s : Sdm) (input : List ℤ) :
    (sdm_packet_process s input).2 = (pushBits s.acc (sdmRun s input).queue).2 := rfl

theorem sdm_packet_process_fst_acc (s : Sdm) (input : List ℤ) :
    ((sdm_packet_process s input).1).acc = (pushBits s.acc (sdmRun s input).queue).1 := rfl

theorem sdm_packet_process_fst_queue (s : Sdm) (input : List ℤ) :
    ((sdm_packet_process s input).1).queue = [] := rfl

theorem sdm_packet_process_fst_bp (s : Sdm) (input : List ℤ) :
    bestPending (sdm_packet_process s input).1 = bestPending (sdmRun s input) := rfl

theorem sdm_run_sample_eq (filter_name : String) (freq o nu lat : ℕ) (s0 : Sdm)
    (input : List ℤ) (h : sdm_init filter_name freq o nu lat = some s0) :
    sdm_run_sample s0 input = bitsOf s0 input ++ bestPending (sdmRun s0 input) := by
  obtain ⟨hlive, hplen0, hq0, hacc0, hlatf, hnumf, hpathsf⟩ := sdm_init_spec h
  obtain ⟨hRlive, hRplen, hRbits⟩ := sdmRun_live input hlive
  have hpg := processGo_from_empty_queue input hq0
  have hbp : (bestPending (sdmRun s0 input)).length = plen (sdmRun s0 input) := by
    rw [bestPending_length hRlive.1.2.1, if_neg hRlive.2.1]
  show (processGo s0 input input.length).2.2 ++
      (sdm_drain (processGo s0 input input.length).1 (s0.latency + 8)).2 = _
  rw [hpg, sdm_drain_out]
  have hq : ({ sdmRun s0 input with queue := [] } : Sdm).queue = [] := rfl
  have hb : bestPending ({ sdmRun s0 input with queue := [] } : Sdm) =
      bestPending (sdmRun s0 input) := rfl
  rw [hq, hb, List.nil_append]
  rw [List.take_of_length_le (by rw [hbp, hRplen]; omega)]

theorem sdm_run_packet_eq (filter_name : String) (freq o nu lat : ℕ) (s0 : Sdm)
    (input : List ℤ) (h : sdm_init filter_name freq o nu lat = some s0) :
    sdm_run_packet s0 input =
      (pushBits [] (bitsOf s0 input)).2 ++
        (packetFinal
          (pushBits (pushBits [] (bitsOf s0 input)).1 (bestPending (sdmRun s0 input))).1
          (pushBits (pushBits [] (bitsOf s0 input)).1 (bestPending (sdmRun s0 input))).2).take
          (input.length + 8) := by
  obtain ⟨hlive, hplen0, hq0, hacc0, hlatf, hnumf, hpathsf⟩ := sdm_init_spec h
  have hq1 : (sdmRun s0 input).queue = bitsOf s0 input := by
    rw [sdmRun_queue, hq0, List.nil_append]
  show (sdm_packet_process s0 input).2 ++
      (sdm_packet_drain (sdm_packet_process s0 input).1 (input.length + 8)).2 = _
  rw [sdm_packet_drain_out, sdm_packet_process_snd, sdm_packet_process_fst_acc,
    sdm_packet_process_fst_queue, sdm_packet_process_fst_bp, List.nil_append,
    hacc0, hq1]

/-- C4: for every input stream and configuration, the bits of the byte
stream produced by packet_process+packet_drain (most-significant-bit
first) are exactly the bit sequence the sample-domain process+drain API
produces for the same input and configuration, followed by zero padding
bits (fewer than 8 of them) completing the final partial byte. -/
theorem sdm_packing_roundtrip (filter_name : String) (freq o nu lat : ℕ) (s0 : Sdm)
    (input : List ℤ) (h : sdm_init filter_name freq o nu lat = some s0) :
    ∃ padLen : ℕ, padLen < 8 ∧
      bytesBits (sdm_run_packet s0 input) =
        sdm_run_sample s0 input ++ List.replicate padLen false := by
  obtain ⟨hlive, hplen0, hq0, hacc0, hlatf, hnumf, hpathsf⟩ := sdm_init_spec h
  obtain ⟨hRlive, hRplen, hRbits⟩ := sdmRun_live input hlive
  have hbp : (bestPending (sdmRun s0 input)).length = plen (sdmRun s0 input) := by
    rw [bestPending_length hRlive.1.2.1, if_neg hRlive.2.1]
  have hcap : (bestPending (sdmRun s0 input)).length + 8 ≤ input.length + 8 := by
    rw [hbp, hRplen]
    omega
  obtain ⟨padLen, hp8, hrt⟩ :=
    packRun_spec (bitsOf s0 input) (bestPending (sdmRun s0 input)) (input.length + 8) hcap
  refine ⟨padLen, hp8, ?_⟩
  rw [sdm_run_packet_eq filter_name freq o nu lat s0 input h,
    sdm_run_sample_eq filter_name freq o nu lat s0 input h, hrt]

theorem sdm_packing_roundtrip_witness :
    ∃ padLen : ℕ, padLen < 8 ∧
      bytesBits (sdm_run_packet sdmS4 [0, 3, -2, 1, 0]) =
        sdm_run_sample sdmS4 [0, 3, -2, 1, 0] ++ List.replicate padLen false :=
  sdm_packing_roundtrip "sdm-4" 2822400 4 2 3 sdmS4 [0, 3, -2, 1, 0] (by decide)
